import Mathlib

/-!
Verification development for the 7Cav retention-analytics scripts.

The source programs (`Milpacs/unitStrengthHistory.py`, `cohortRetentionAnalysis.py`,
`CohortMovementTracker.py`) are shallowly embedded below.  Strings are modelled as
lists of characters (`Chars`), calendar dates as day numbers counted from
0001-01-01 of the proleptic Gregorian calendar (the ordering and day arithmetic
used by `datetime`), and pandas data frames as Lean lists.  The call
`datetime.now()` inside `create_memberships` is modelled as an explicit `now`
parameter, since a shallow embedding has no ambient clock; every other step is a
pure function of its inputs, exactly as in the source.
-/

/-- Python strings are modelled as lists of characters. -/
abbrev Chars := List Char

/-- `p.isPrefixOf s` for character lists (`str.startswith`). -/
def hasPrefixB : Chars → Chars → Bool
  | [], _ => true
  | _ :: _, [] => false
  | p :: ps, c :: cs => p == c && hasPrefixB ps cs

/-- Python's substring containment `sep in s`. -/
def hasSubstr (p : Chars) : Chars → Bool
  | [] => p.isEmpty
  | c :: cs => hasPrefixB p (c :: cs) || hasSubstr p cs

/-- Python `str.strip()`: drop whitespace from both ends. -/
def trimList (s : Chars) : Chars :=
  ((s.dropWhile Char.isWhitespace).reverse.dropWhile Char.isWhitespace).reverse

/-- Python `str.split(sep)` for a single-character separator. -/
def splitOnChar (sep : Char) : Chars → List Chars
  | [] => [[]]
  | c :: rest =>
    if c = sep then [] :: splitOnChar sep rest
    else
      match splitOnChar sep rest with
      | [] => [[c]]
      | p :: ps => (c :: p) :: ps

/-- The literal marker the transfer-record scanner splits on. -/
def assignedSep : Chars := "Assigned".toList

/-- Fuel-driven worker for `str.split("Assigned")`; the fuel only needs to
dominate the input length, which `splitAssigned` guarantees. -/
def splitGo : Nat → Chars → List Chars
  | _, [] => [[]]
  | 0, s => [s]
  | fuel + 1, c :: rest =>
    if hasPrefixB assignedSep (c :: rest) then
      [] :: splitGo fuel ((c :: rest).drop assignedSep.length)
    else
      match splitGo fuel rest with
      | [] => [[c]]
      | p :: ps => (c :: p) :: ps

/-- Python `details.split("Assigned")`. -/
def splitAssigned (s : Chars) : List Chars := splitGo s.length s

/-- Python's `list[-1]` on the (never empty) result of `split`. -/
def lastPart (l : List Chars) : Chars := l.getLastD []

/-- Python `str.replace(",", "")`. -/
def removeCommas (s : Chars) : Chars := s.filter (fun c => c ≠ ',')

/-- Python `"/".join(parts)`. -/
def joinSlash : List Chars → Chars
  | [] => []
  | [p] => p
  | p :: ps => p ++ '/' :: joinSlash ps

/-- Decimal digit value of an ASCII digit character. -/
def digitVal (c : Char) : Nat := c.toNat - 48

/-- Zero-padded decimal rendering, as `strftime` does for `%Y` / `%m`. -/
def padDigits (k n : Nat) : Chars :=
  let ds := Nat.toDigits 10 n
  List.replicate (k - ds.length) '0' ++ ds

/-! ## Calendar arithmetic (the fragment of `datetime` the scripts use) -/

/-- Gregorian leap-year rule, as in `datetime`. -/
def isLeap (y : Nat) : Bool := y % 4 = 0 && (y % 100 ≠ 0 || y % 400 = 0)

/-- Days in the months preceding month `m` (1-based) of year `y`. -/
def daysBeforeMonth (y m : Nat) : Nat :=
  let base :=
    match m with
    | 1 => 0 | 2 => 31 | 3 => 59 | 4 => 90 | 5 => 120 | 6 => 151
    | 7 => 181 | 8 => 212 | 9 => 243 | 10 => 273 | 11 => 304 | _ => 334
  base + (if isLeap y && m > 2 then 1 else 0)

/-- Length of month `m` of year `y`, as validated by `datetime(y, m, d)`. -/
def daysInMonth (y m : Nat) : Nat :=
  match m with
  | 2 => if isLeap y then 29 else 28
  | 4 => 30 | 6 => 30 | 9 => 30 | 11 => 30
  | _ => 31

/-- Day number of `y-m-d`, counting 0001-01-01 as day 0 (Python's
`date.toordinal() - 1`). -/
def toDays (y m d : Nat) : Int :=
  ((365 * (y - 1) + ((y - 1) / 4 - (y - 1) / 100) + (y - 1) / 400
      + daysBeforeMonth y m + (d - 1) : Nat) : Int)

/-- Inverse of `toDays` onto (year, month); used only to render the `%Y-%m`
cohort label.  Follows the standard civil-from-days construction. -/
def civilYM (n : Nat) : Nat × Nat :=
  let n2 := n + 306
  let era := n2 / 146097
  let doe := n2 % 146097
  let yoe := (doe - doe / 1460 + doe / 36524 - doe / 146096) / 365
  let y1 := yoe + era * 400
  let doy := doe - (365 * yoe + (yoe / 4 - yoe / 100))
  let mp := (5 * doy + 2) / 153
  let m := if mp < 10 then mp + 3 else mp - 9
  (if m ≤ 2 then y1 + 1 else y1, m)

/-- The `%m` field of `strptime`: `1[0-2]|0[1-9]|[1-9]`, longest-first
alternation, returning the value and the unconsumed input. -/
def parseMonth : Chars → Option (Nat × Chars)
  | '1' :: c :: rest =>
    if '0' ≤ c && c ≤ '2' then some (10 + digitVal c, rest) else some (1, c :: rest)
  | '0' :: c :: rest =>
    if '1' ≤ c && c ≤ '9' then some (digitVal c, rest) else none
  | c :: rest =>
    if '1' ≤ c && c ≤ '9' then some (digitVal c, rest) else none
  | [] => none

/-- The `%d` field of `strptime`: `3[01]|[12]\d|0[1-9]|[1-9]`. -/
def parseDay : Chars → Option (Nat × Chars)
  | '3' :: c :: rest =>
    if c == '0' || c == '1' then some (30 + digitVal c, rest) else some (3, c :: rest)
  | '0' :: c :: rest =>
    if '1' ≤ c && c ≤ '9' then some (digitVal c, rest) else none
  | c :: c2 :: rest =>
    if ('1' ≤ c && c ≤ '2') && c2.isDigit then some (10 * digitVal c + digitVal c2, rest)
    else if '1' ≤ c && c ≤ '9' then some (digitVal c, c2 :: rest)
    else none
  | [c] =>
    if '1' ≤ c && c ≤ '9' then some (digitVal c, []) else none
  | [] => none

/-- `datetime.strptime(s, "%Y-%m-%d")`: four year digits, dashes, the `%m` and
`%d` fields, full consumption, then `datetime`'s range validation.  Returns the
day number, or `none` where the source raises `ValueError`. -/
def parseDate (s : Chars) : Option Int :=
  match s with
  | y1 :: y2 :: y3 :: y4 :: '-' :: rest =>
    if y1.isDigit && y2.isDigit && y3.isDigit && y4.isDigit then
      let y := 1000 * digitVal y1 + 100 * digitVal y2 + 10 * digitVal y3 + digitVal y4
      match parseMonth rest with
      | some (m, rest2) =>
        match rest2 with
        | '-' :: rest3 =>
          match parseDay rest3 with
          | some (d, []) =>
            if 1 ≤ y && 1 ≤ d && d ≤ daysInMonth y m then some (toDays y m d) else none
          | _ => none
        | _ => none
      | none => none
    else none
  | _ => none

/-! ## Unit designators -/

/-- The four-level unit record produced by `parse_unit`; `none` models the
Python `None` ("unknown") field value. -/
structure Unit4 where
  squad : Option Chars
  platoon : Option Chars
  company : Option Chars
  battalion : Option Chars
deriving DecidableEq

/-- Python's `\w` word character (ASCII fragment, which is all the data uses). -/
def isWordChar (c : Char) : Bool := c.isAlphanum || c == '_'

/-- `re.findall` for the single-character classes `\b([A-Z])\b`, `\b(\d)\b` and
`\b([A-Z]|\d)\b`, returning the first match: a character of the class whose
neighbours (when present) are not word characters.  `prev` is the character
just before the scan position. -/
def findBounded (p : Char → Bool) : Option Char → Chars → Option Char
  | _, [] => none
  | prev, c :: rest =>
    if p c
        && (match prev with | none => true | some pc => !isWordChar pc)
        && (match rest with | [] => true | nc :: _ => !isWordChar nc) then
      some c
    else findBounded p (some c) rest

/-- First match of a boundary-delimited single-character pattern. -/
def findSingle (p : Char → Bool) (s : Chars) : Option Char := findBounded p none s

/-- Character class `[A-Z]`. -/
def isUpperAZ (c : Char) : Bool := 'A' ≤ c && c ≤ 'Z'

/-- Character class `[A-Z]|\d`. -/
def isSquadChar (c : Char) : Bool := isUpperAZ c || c.isDigit

/-- First match of `(1-7|2-7|3-7|ACD)`: at each position the alternatives are
tried left to right, as `re.findall` does. -/
def findBattalion : Chars → Option Chars
  | [] => none
  | c :: rest =>
    if hasPrefixB "1-7".toList (c :: rest) then some "1-7".toList
    else if hasPrefixB "2-7".toList (c :: rest) then some "2-7".toList
    else if hasPrefixB "3-7".toList (c :: rest) then some "3-7".toList
    else if hasPrefixB "ACD".toList (c :: rest) then some "ACD".toList
    else findBattalion rest

namespace UnitStrengthHistory

/-- `normalize_squad` of `Milpacs/unitStrengthHistory.py`.  Its argument is the
single-character regex match (or `None`), so it is modelled on `Option Char`;
an alphabetic match maps to `str(ord(squad.upper()) - ord('A') + 1)`, anything
else passes through. -/
def normalize_squad : Option Char → Option Chars
  | none => none
  | some c =>
    if c.isAlpha then some (Nat.toDigits 10 (c.toUpper.toNat - 64)) else some [c]

/-- `parse_unit`: split on `/`, then positionally extract squad, platoon,
company and battalion with their level patterns (`safe_extract` = first
`findall` match, `None` when the segment is missing or matches nothing). -/
def parse_unit (title : Chars) : Unit4 :=
  let parts := splitOnChar '/' title
  { squad := normalize_squad ((parts.get? 0).bind (findSingle isSquadChar))
    platoon := ((parts.get? 1).bind (findSingle Char.isDigit)).map (fun c => [c])
    company := ((parts.get? 2).bind (findSingle isUpperAZ)).map (fun c => [c])
    battalion := (parts.get? 3).bind findBattalion }

end UnitStrengthHistory

namespace CohortMovementTracker

/-- `convert_letter_to_number`: the `letter_map` lookup with identity default. -/
def convert_letter_to_number (p : Chars) : Chars :=
  if p = "A".toList then "1".toList
  else if p = "B".toList then "2".toList
  else if p = "C".toList then "3".toList
  else if p = "D".toList then "4".toList
  else if p = "E".toList then "5".toList
  else if p = "F".toList then "6".toList
  else if p = "G".toList then "7".toList
  else if p = "H".toList then "8".toList
  else if p = "I".toList then "9".toList
  else p

/-- `re.match(r"\d{3}/\d{2}/\d{2}", s)`: an anchored-at-start (prefix, not
full-string) match of three digits, a slash, two digits, a slash, two digits. -/
def bootMatch : Chars → Bool
  | a :: b :: c :: s1 :: d :: e :: s2 :: f :: g :: _ =>
    a.isDigit && b.isDigit && c.isDigit && s1 == '/'
      && d.isDigit && e.isDigit && s2 == '/' && f.isDigit && g.isDigit
  | _ => false

/-- `normalize_cohort_format`: strip commas; classify a prefix match of the
three-group numeric pattern as "Boot Camp"; otherwise split on `/`, convert a
leading token that is a substring of "ABCDEFGHI" (Python's `in` on strings is
substring containment), and re-join, or yield "Unknown" for a single segment. -/
def normalize_cohort_format (cohort : Chars) : Chars :=
  let t := removeCommas cohort
  if bootMatch t then "Boot Camp".toList
  else
    let parts := splitOnChar '/' t
    let parts2 :=
      match parts with
      | [] => []
      | p0 :: rest =>
        if hasSubstr p0 "ABCDEFGHI".toList then convert_letter_to_number p0 :: rest
        else p0 :: rest
    if parts2.length > 1 then joinSlash parts2
    else "Unknown".toList

end CohortMovementTracker

namespace CohortRetentionAnalysis

/-- `normalize_squad` of `cohortRetentionAnalysis.py`: strip and uppercase;
a single alphabetic character maps to `str(ord(c) - ord('A') + 1)`; an
all-digit token passes through (stripped); anything else yields `None`. -/
def normalize_squad : Option Chars → Option Chars
  | none => none
  | some s =>
    let t := (trimList s).map Char.toUpper
    if t.length == 1 && t.all Char.isAlpha then
      some (Nat.toDigits 10 ((t.headD 'A').toNat - 64))
    else if !t.isEmpty && t.all Char.isDigit then some t
    else none

end CohortRetentionAnalysis

/-! ## Events and memberships

`extract_events` / `create_memberships` appear verbatim in both analysis
scripts (`Milpacs/unitStrengthHistory.py` and `cohortRetentionAnalysis.py`);
the only textual difference upstream of them, the squad normalizer, agrees on
every value the `\b([A-Z]|\d)\b` pattern can produce, so the pipeline is
embedded once. -/

/-- The `event` column: `'transfer'` or `'discharge'`. -/
inductive EventKind
  | transfer
  | discharge
deriving DecidableEq

/-- One row of the events frame: date, kind, and the four unit columns
(bundled as `Unit4`; discharge rows carry all-`None` units, as in the source). -/
structure Event where
  date : Int
  event : EventKind
  unit : Unit4
deriving DecidableEq

/-- One raw milpacs record, with the three fields the scripts read. -/
structure Record where
  recordType : Chars
  recordDate : Chars
  recordDetails : Chars
deriving DecidableEq

/-- The per-record body of the `extract_events` loop, after the date has been
parsed: transfers parse the text after the last "Assigned" marker; discharges
yield an all-`None` unit; other record types are skipped. -/
def eventsOfRecord (r : Record) (d : Int) : List Event :=
  if r.recordType = "RECORD_TYPE_TRANSFER".toList then
    [⟨d, .transfer, UnitStrengthHistory.parse_unit (trimList (lastPart (splitAssigned r.recordDetails)))⟩]
  else if r.recordType = "RECORD_TYPE_DISCHARGE".toList then
    [⟨d, .discharge, ⟨none, none, none, none⟩⟩]
  else []

/-- The `extract_events` loop: `strptime` runs on every record before the type
dispatch, and an unparseable date raises (modelled as `Except.error` carrying
the offending date string), aborting the member's extraction. -/
def collectEvents : List Record → Except Chars (List Event)
  | [] => .ok []
  | r :: rest =>
    match parseDate r.recordDate with
    | none => .error r.recordDate
    | some d =>
      match collectEvents rest with
      | .error e => .error e
      | .ok evs => .ok (eventsOfRecord r d ++ evs)

/-- `extract_events`: collect events (propagating the first date-parse error),
then sort ascending by date.  `sort_values` uses an unstable quicksort, so the
source fixes no order among same-date events; insertion sort realizes one
date-ascending order. -/
def extract_events (recs : List Record) : Except Chars (List Event) :=
  match collectEvents recs with
  | .error e => .error e
  | .ok evs => .ok (List.insertionSort (fun a b => a.date ≤ b.date) evs)

/-- One membership interval (the `current_assignment` dict); `end_date` is the
dict's `end_date` slot, `none` while the interval is still open. -/
structure MembershipRow where
  start_date : Int
  unit : Unit4
  end_date : Option Int
deriving DecidableEq

/-- The `create_memberships` fold.  `cur` is `current_assignment`: a transfer
closes any open interval the day before and opens a new one; a discharge closes
any open interval on its own date; at the end of the sequence an open interval
is closed at `now` (the source's `datetime.now()` read, day-granular). -/
def cmGo (now : Int) : List Event → Option MembershipRow → List MembershipRow
  | [], none => []
  | [], some c => [{ c with end_date := some now }]
  | e :: rest, cur =>
    match e.event, cur with
    | .transfer, none => cmGo now rest (some ⟨e.date, e.unit, none⟩)
    | .transfer, some c =>
      { c with end_date := some (e.date - 1) } :: cmGo now rest (some ⟨e.date, e.unit, none⟩)
    | .discharge, none => cmGo now rest none
    | .discharge, some c => { c with end_date := some e.date } :: cmGo now rest none

/-- `create_memberships`, with `datetime.now()` as the explicit `now`. -/
def create_memberships (events : List Event) (now : Int) : List MembershipRow :=
  cmGo now events none

/-- The `current_assignment` state left after the fold; `create_memberships`
depends on the clock exactly when this is `some`. -/
def finalOpen : List Event → Option MembershipRow → Option MembershipRow
  | [], cur => cur
  | e :: rest, cur =>
    match e.event, cur with
    | .transfer, _ => finalOpen rest (some ⟨e.date, e.unit, none⟩)
    | .discharge, _ => finalOpen rest none

/-! ## Daily strength -/

/-- A unit with no absent field; rows whose group key has an absent field are
dropped by pandas `groupby` (default `dropna=True`). -/
def fullUnit (u : Unit4) : Bool :=
  u.squad.isSome && u.platoon.isSome && u.company.isSome && u.battalion.isSome

/-- `pd.date_range(start, end)`: every day from `start` to `end` inclusive
(`end_date` is always set when the source reaches this point; an absent end
would raise in `date_range` and is modelled as an empty range). -/
def dateRange (s : Int) (e : Option Int) : List Int :=
  match e with
  | none => []
  | some e2 => (List.range (e2 + 1 - s).toNat).map (fun (i : Nat) => s + (i : Int))

/-- Lexicographic ≤ on character lists by code point, as pandas compares
strings when sorting. -/
def charsLe : Chars → Chars → Bool
  | [], _ => true
  | _ :: _, [] => false
  | a :: as2, b :: bs => if a = b then charsLe as2 bs else decide (a.toNat < b.toNat)

/-- Ordering on optional strings (all sorted keys are `some`; the `none`
cases are an arbitrary completion). -/
def optCharsLe : Option Chars → Option Chars → Bool
  | none, _ => true
  | some _, none => false
  | some a, some b => charsLe a b

/-- Key order on units: battalion, company, platoon, squad. -/
def unitLe (u v : Unit4) : Bool :=
  if u.battalion ≠ v.battalion then optCharsLe u.battalion v.battalion
  else if u.company ≠ v.company then optCharsLe u.company v.company
  else if u.platoon ≠ v.platoon then optCharsLe u.platoon v.platoon
  else optCharsLe u.squad v.squad

/-- Row order of the daily table: date, then the unit fields. -/
def dailyKeyLe (a b : Int × Unit4) : Bool :=
  if a.1 ≠ b.1 then decide (a.1 < b.1) else unitLe a.2 b.2

namespace UnitStrengthHistory

/-- The per-day expansion loop of `calculate_daily_strength`: one `(date,
unit)` row per interval per covered day. -/
def dailyRows (ms : List MembershipRow) : List (Int × Unit4) :=
  ms.flatMap fun m => (dateRange m.start_date m.end_date).map fun d => (d, m.unit)

/-- The `.size()` of one groupby group: the number of expanded rows equal to
the group key. -/
def keyCount (rows : List (Int × Unit4)) (k : Int × Unit4) : Nat :=
  (rows.filter (fun r => decide (r = k))).length

/-- `calculate_daily_strength`: group the expanded rows by `(date, unit)` —
pandas drops any row whose key has an absent field — count each group, and
sort by date then unit fields.  A row is `(date, unit, strength)`. -/
def calculate_daily_strength (ms : List MembershipRow) : List (Int × Unit4 × Nat) :=
  let rows := dailyRows ms
  let keys := (rows.filter (fun r => fullUnit r.2)).dedup
  (List.insertionSort (fun a b => dailyKeyLe a b = true) keys).map
    fun k => (k.1, k.2, keyCount rows k)

end UnitStrengthHistory

/-- The reference count the specification describes for claim C6: the number
of membership intervals of unit `u` whose inclusive span contains day `d`. -/
def coveringCount (ms : List MembershipRow) (d : Int) (u : Unit4) : Nat :=
  (ms.filter fun m =>
    m.unit == u && decide (m.start_date ≤ d)
      && (match m.end_date with | none => false | some e => decide (d ≤ e))).length

/-! ## Cohort retention -/

namespace CohortRetentionAnalysis

/-- `assign_cohort`: the `%Y-%m` period label of a day number. -/
def assign_cohort (d : Int) : Chars :=
  let ym := civilYM d.toNat
  padDigits 4 ym.1 ++ '-' :: padDigits 2 ym.2

/-- The `groupby(['cohort', 'Battalion', 'Company', 'Platoon', 'Squad'])` key
of a membership row. -/
def memberKey (m : MembershipRow) : Chars × Unit4 := (assign_cohort m.start_date, m.unit)

/-- The rows of one groupby group. -/
def groupOf (ms : List MembershipRow) (k : Chars × Unit4) : List MembershipRow :=
  ms.filter fun m => memberKey m == k

/-- `group[group['end_date'] >= check_date].shape[0]`; a `NaT` end date
compares false in pandas. -/
def retainedCount (g : List MembershipRow) (cd : Int) : Nat :=
  (g.filter fun m => match m.end_date with | none => false | some e => decide (cd ≤ e)).length

/-- `group['start_date'].min()`. -/
def minStart (g : List MembershipRow) : Int := ((g.map (fun m => m.start_date)).min?).getD 0

/-- Round half to even (Python's `round`), over exact rationals. -/
def rhe (x : Rat) : Int :=
  if x - (⌊x⌋ : Rat) < 1 / 2 then ⌊x⌋
  else if 1 / 2 < x - (⌊x⌋ : Rat) then ⌊x⌋ + 1
  else if ⌊x⌋ % 2 = 0 then ⌊x⌋ else ⌊x⌋ + 1

/-- Python `round(v, 2)` over exact rationals. -/
def pyRound2 (q : Rat) : Rat := ((rhe (q * 100) : Int) : Rat) / 100

/-- `round((retained / total) * 100, 2)` for one group and horizon, with
`check_date = min(start_date) + interval` days.  The source computes this in
floating point; it is modelled in exact rational arithmetic. -/
def retentionAt (g : List MembershipRow) (h : Nat) : Rat :=
  pyRound2 ((((retainedCount g (minStart g + (h : Int))) : Rat) / ((g.length : Nat) : Rat)) * 100)

/-- One output row of `calculate_retention`. -/
structure CohortRow where
  cohort : Chars
  unit : Unit4
  totalMembers : Nat
  retention : List (Nat × Rat)
deriving DecidableEq

/-- Group-key order: cohort label, then the unit fields. -/
def cohortKeyLe (a b : Chars × Unit4) : Bool :=
  if a.1 ≠ b.1 then charsLe a.1 b.1 else unitLe a.2 b.2

/-- `calculate_retention`: group the membership rows by `(cohort, unit)` —
pandas `groupby` drops rows whose key has an absent field and iterates groups
in sorted key order — and emit the member count and the rounded retention
percentage at each horizon. -/
def calculate_retention (ms : List MembershipRow) (intervals : List Nat) : List CohortRow :=
  let keys := ((ms.filter fun m => fullUnit m.unit).map memberKey).dedup
  (List.insertionSort (fun a b => cohortKeyLe a b = true) keys).map fun k =>
    let g := groupOf ms k
    { cohort := k.1, unit := k.2, totalMembers := g.length,
      retention := intervals.map fun h => (h, retentionAt g h) }

end CohortRetentionAnalysis

/-! ## Character-class helper lemmas -/

lemma digit_not_whitespace {c : Char} (h : c.isDigit = true) : c.isWhitespace = false := by
  simp [Char.isDigit] at h
  simp only [Char.isWhitespace, Bool.or_eq_false_iff, decide_eq_false_iff_not]
  refine ⟨⟨⟨?_, ?_⟩, ?_⟩, ?_⟩ <;> rintro rfl <;> revert h <;> decide

lemma digit_toUpper_eq {c : Char} (h : c.isDigit = true) : c.toUpper = c := by
  simp [Char.isDigit, Char.le_def, UInt32.le_def, BitVec.le_def] at h
  simp only [Char.toUpper, Char.toNat, UInt32.toNat]
  rw [if_neg]
  omega

lemma digit_not_alpha {c : Char} (h : c.isDigit = true) : c.isAlpha = false := by
  simp [Char.isDigit, Char.le_def, UInt32.le_def, BitVec.le_def] at h
  simp [Char.isAlpha, Char.isUpper, Char.isLower, UInt32.le_def, BitVec.le_def]
  omega

lemma dropWhile_ws_eq_self {s : Chars} (h : ∀ c ∈ s, c.isWhitespace = false) :
    s.dropWhile Char.isWhitespace = s := by
  cases s with
  | nil => rfl
  | cons c cs =>
    rw [List.dropWhile_cons, h c (List.mem_cons_self c cs)]
    simp

lemma trimList_of_no_ws {s : Chars} (h : ∀ c ∈ s, c.isWhitespace = false) :
    trimList s = s := by
  unfold trimList
  rw [dropWhile_ws_eq_self h, dropWhile_ws_eq_self (fun c hc => h c (List.mem_reverse.mp hc)),
    List.reverse_reverse]

/-! ## Claim C8: the "Boot Camp" special case -/

/-- C8 (counterexample).  The claim says "the unit-designator parser"
classifies `005/02/03` as "Boot Camp" instead of field-wise parsing, citing
both `parse_unit` and `normalize_cohort_format`.  Only the cohort-movement
normalizer has the special case: the interval-pipeline parser `parse_unit`
has no "Boot Camp" branch and positionally field-wise-parses `005/02/03`
(every segment's single-character pattern fails on the multi-digit segments,
leaving all four fields absent). -/
theorem c8_counterexample :
    UnitStrengthHistory.parse_unit "005/02/03".toList = ⟨none, none, none, none⟩
    ∧ CohortMovementTracker.normalize_cohort_format "005/02/03".toList = "Boot Camp".toList := by
  constructor
  · decide
  · decide

/-- C8 (amended).  `normalize_cohort_format` classifies every designator whose
comma-stripped text merely begins with (in particular, entirely matches) the
three-group numeric pattern `ddd/dd/dd` as the literal category "Boot Camp";
the membership-pipeline parser `parse_unit` has no such case. -/
theorem c8_boot_camp (cs : Chars)
    (h : CohortMovementTracker.bootMatch (removeCommas cs) = true) :
    CohortMovementTracker.normalize_cohort_format cs = "Boot Camp".toList := by
  unfold CohortMovementTracker.normalize_cohort_format
  simp [h]

/-- C8 (witness).  A designator with a comma and trailing text still
prefix-matches after comma removal and is classified "Boot Camp". -/
theorem c8_witness :
    CohortMovementTracker.bootMatch (removeCommas "0,05/02/03x".toList) = true
    ∧ CohortMovementTracker.normalize_cohort_format "0,05/02/03x".toList = "Boot Camp".toList :=
  ⟨by decide, c8_boot_camp "0,05/02/03x".toList (by decide)⟩

/-! ## Claim C9: the squad-token normalizer -/

/-- C9 (counterexample).  The claim says a token that is neither a single
uppercase A–I letter nor numeric yields "unknown"; the source maps every
single letter to its alphabet ordinal, so "J" yields "10", not `None`. -/
theorem c9_counterexample :
    CohortRetentionAnalysis.normalize_squad (some "J".toList) = some "10".toList
    ∧ CohortRetentionAnalysis.normalize_squad (some "J".toList) ≠ none := by
  constructor
  · decide
  · decide

/-- C9 (amended).  `normalize_squad` strips and uppercases its token; every
single alphabetic character (uppercase or lowercase, A–I giving "1".."9" but
also J–Z giving "10".."26") maps to its 1-based alphabet ordinal; an all-digit
token passes through; and a token whose stripped uppercased form is neither a
single letter nor all digits yields `None`. -/
theorem c9_normalize_squad :
    (∀ c ∈ "ABCDEFGHI".toList,
      CohortRetentionAnalysis.normalize_squad (some [c]) = some (Nat.toDigits 10 (c.toNat - 64)))
    ∧ (∀ c ∈ "JKLMNOPQRSTUVWXYZabcdefghijklmnopqrstuvwxyz".toList,
      CohortRetentionAnalysis.normalize_squad (some [c])
        = some (Nat.toDigits 10 (c.toUpper.toNat - 64)))
    ∧ (∀ s : Chars, s ≠ [] → (∀ c ∈ s, c.isDigit = true) →
      CohortRetentionAnalysis.normalize_squad (some s) = some s)
    ∧ (∀ s : Chars,
      (((trimList s).map Char.toUpper).length == 1
        && ((trimList s).map Char.toUpper).all Char.isAlpha) = false →
      (!((trimList s).map Char.toUpper).isEmpty
        && ((trimList s).map Char.toUpper).all Char.isDigit) = false →
      CohortRetentionAnalysis.normalize_squad (some s) = none) := by
  refine ⟨by decide, by decide, ?_, ?_⟩
  · intro s hne hdig
    have hws : ∀ c ∈ s, c.isWhitespace = false := fun c hc => digit_not_whitespace (hdig c hc)
    have hmap : s.map Char.toUpper = s := by
      rw [List.map_congr_left (fun c hc => digit_toUpper_eq (hdig c hc))]
      exact List.map_id s
    have hstep : CohortRetentionAnalysis.normalize_squad (some s)
        = (let t := (trimList s).map Char.toUpper;
          if (t.length == 1 && t.all Char.isAlpha) = true then
            some (Nat.toDigits 10 ((t.headD 'A').toNat - 64))
          else if (!t.isEmpty && t.all Char.isDigit) = true then some t else none) := rfl
    rw [hstep, trimList_of_no_ws hws, hmap]
    cases s with
    | nil => exact absurd rfl hne
    | cons c cs =>
      rw [if_neg, if_pos]
      · simp only [Bool.and_eq_true, Bool.not_eq_true', List.isEmpty_cons]
        exact ⟨trivial, List.all_eq_true.mpr fun x hx => hdig x hx⟩
      · simp only [Bool.and_eq_true, not_and]
        intro _
        simp only [List.all_cons, Bool.and_eq_true]
        rintro ⟨ha, -⟩
        rw [digit_not_alpha (hdig c (List.mem_cons_self c cs))] at ha
        cases ha
  · intro s h1 h2
    have hstep : CohortRetentionAnalysis.normalize_squad (some s)
        = (if (((trimList s).map Char.toUpper).length == 1
              && ((trimList s).map Char.toUpper).all Char.isAlpha) = true then
            some (Nat.toDigits 10 ((((trimList s).map Char.toUpper).headD 'A').toNat - 64))
          else if (!((trimList s).map Char.toUpper).isEmpty
              && ((trimList s).map Char.toUpper).all Char.isDigit) = true then
            some ((trimList s).map Char.toUpper)
          else none) := rfl
    rw [hstep, if_neg (by rw [h1]; simp), if_neg (by rw [h2]; simp)]

/-- C9 (witness).  The amended rules evaluated on "B" and on "42". -/
theorem c9_witness :
    CohortRetentionAnalysis.normalize_squad (some ['B']) = some (Nat.toDigits 10 ('B'.toNat - 64))
    ∧ CohortRetentionAnalysis.normalize_squad (some "42".toList) = some "42".toList :=
  ⟨c9_normalize_squad.1 'B' (by decide),
   c9_normalize_squad.2.2.1 "42".toList (by decide) (by decide)⟩

/-! ## Claim C4: determinism and the clock read -/

/-- A concrete fully-known unit used by several concrete scenarios. -/
def unitA : Unit4 := ⟨some "1".toList, some "1".toList, some "A".toList, some "1-7".toList⟩

/-- A second concrete fully-known unit. -/
def unitB : Unit4 := ⟨some "2".toList, some "3".toList, some "B".toList, some "2-7".toList⟩

lemma cmGo_clock_free :
    ∀ (evs : List Event) (cur : Option MembershipRow), finalOpen evs cur = none →
      ∀ n1 n2 : Int, cmGo n1 evs cur = cmGo n2 evs cur := by
  intro evs
  induction evs with
  | nil =>
    intro cur h n1 n2
    cases cur with
    | none => rfl
    | some c => exact absurd h (by simp [finalOpen])
  | cons e rest ih =>
    intro cur h n1 n2
    cases hk : e.event <;> cases cur <;>
      simp only [cmGo, hk] <;>
      [skip; skip; skip; skip] <;>
      first
        | exact ih _ (by simpa [finalOpen, hk] using h) n1 n2
        | rw [ih _ (by simpa [finalOpen, hk] using h) n1 n2]

/-- C4 (counterexample).  The claim says no step reads a free-running clock;
but `create_memberships` closes a still-open interval at `datetime.now()`, so
a member with an open transfer produces different memberships when the same
input is processed at two different clock instants. -/
theorem c4_counterexample :
    create_memberships [⟨10, .transfer, unitA⟩] 50
      ≠ create_memberships [⟨10, .transfer, unitA⟩] 60 := by
  decide

/-- C4 (amended).  Every pipeline step is a pure function of its inputs
except for the `datetime.now()` read that closes a member's still-open
interval; hence the run is reproducible exactly when no open interval remains:
if the `create_memberships` fold ends with no `current_assignment`, its output
is independent of the clock instant. -/
theorem c4_deterministic (evs : List Event) (h : finalOpen evs none = none) (n1 n2 : Int) :
    create_memberships evs n1 = create_memberships evs n2 :=
  cmGo_clock_free evs none h n1 n2

/-- C4 (witness).  A transfer followed by a discharge leaves no open interval,
and the memberships are the same at clock instants 0 and 999. -/
theorem c4_witness :
    finalOpen [⟨10, .transfer, unitA⟩, ⟨20, .discharge, ⟨none, none, none, none⟩⟩] none = none
    ∧ create_memberships [⟨10, .transfer, unitA⟩, ⟨20, .discharge, ⟨none, none, none, none⟩⟩] 0
      = create_memberships [⟨10, .transfer, unitA⟩, ⟨20, .discharge, ⟨none, none, none, none⟩⟩] 999 :=
  ⟨by decide,
   c4_deterministic [⟨10, .transfer, unitA⟩, ⟨20, .discharge, ⟨none, none, none, none⟩⟩]
     (by decide) 0 999⟩

/-! ## Claim C2: a record with a bad date string -/

lemma collectEvents_error_of_bad_date :
    ∀ recs : List Record, (∃ r ∈ recs, parseDate r.recordDate = none) →
      ∃ msg, collectEvents recs = .error msg := by
  intro recs
  induction recs with
  | nil => rintro ⟨r, hr, -⟩; cases hr
  | cons a rest ih =>
    rintro ⟨r, hr, hbad⟩
    cases ha : parseDate a.recordDate with
    | none => exact ⟨a.recordDate, by simp [collectEvents, ha]⟩
    | some d =>
      rcases List.mem_cons.mp hr with rfl | hr2
      · rw [ha] at hbad; cases hbad
      · obtain ⟨msg, hmsg⟩ := ih ⟨r, hr2, hbad⟩
        exact ⟨msg, by simp [collectEvents, ha, hmsg]⟩

/-- C2 (counterexample).  The claim says a record whose date string fails
validation is skipped while the member's remaining records are still
processed; but `strptime` runs before any error handling, so the whole
member's extraction raises: with a good transfer, then a record dated
"2023-13-05", then a good discharge, `extract_events` yields an error and no
event list (the two good records are lost too). -/
theorem c2_counterexample :
    extract_events
        [⟨"RECORD_TYPE_TRANSFER".toList, "2023-01-01".toList, "Assigned 1/1/A/1-7".toList⟩,
         ⟨"RECORD_TYPE_TRANSFER".toList, "2023-13-05".toList, "Assigned 1/1/A/1-7".toList⟩,
         ⟨"RECORD_TYPE_DISCHARGE".toList, "2023-03-01".toList, "retired".toList⟩]
      = .error "2023-13-05".toList
    ∧ ∀ evs : List Event,
      extract_events
          [⟨"RECORD_TYPE_TRANSFER".toList, "2023-01-01".toList, "Assigned 1/1/A/1-7".toList⟩,
           ⟨"RECORD_TYPE_TRANSFER".toList, "2023-13-05".toList, "Assigned 1/1/A/1-7".toList⟩,
           ⟨"RECORD_TYPE_DISCHARGE".toList, "2023-03-01".toList, "retired".toList⟩]
        ≠ .ok evs := by
  refine ⟨rfl, ?_⟩
  intro evs h
  rw [show extract_events
        [⟨"RECORD_TYPE_TRANSFER".toList, "2023-01-01".toList, "Assigned 1/1/A/1-7".toList⟩,
         ⟨"RECORD_TYPE_TRANSFER".toList, "2023-13-05".toList, "Assigned 1/1/A/1-7".toList⟩,
         ⟨"RECORD_TYPE_DISCHARGE".toList, "2023-03-01".toList, "retired".toList⟩]
      = .error "2023-13-05".toList from rfl] at h
  cases h

/-- C2 (amended).  `extract_events` validates every record's date with
`strptime` before the type dispatch; if any record's date string fails to
parse, the member's whole extraction fails with an error naming the first
offending date string — nothing is skipped and no event list is produced for
that member. -/
theorem c2_bad_date_aborts (recs : List Record)
    (h : ∃ r ∈ recs, parseDate r.recordDate = none) :
    ∃ msg, extract_events recs = .error msg := by
  obtain ⟨msg, hmsg⟩ := collectEvents_error_of_bad_date recs h
  exact ⟨msg, by simp [extract_events, hmsg]⟩

/-- C2 (witness).  The amended behaviour at a one-record member whose date
month field is out of range. -/
theorem c2_witness :
    (∃ r ∈ [(⟨"RECORD_TYPE_DISCHARGE".toList, "2023-13-05".toList, "x".toList⟩ : Record)],
      parseDate r.recordDate = none)
    ∧ ∃ msg, extract_events
        [(⟨"RECORD_TYPE_DISCHARGE".toList, "2023-13-05".toList, "x".toList⟩ : Record)]
        = .error msg :=
  ⟨by decide,
   c2_bad_date_aborts [⟨"RECORD_TYPE_DISCHARGE".toList, "2023-13-05".toList, "x".toList⟩]
     (by decide)⟩

/-! ## Claim C10: locating the unit substring after "Assigned" -/

lemma splitGo_no_occ :
    ∀ (fuel : Nat) (s : Chars), hasSubstr assignedSep s = false → splitGo fuel s = [s] := by
  intro fuel
  induction fuel with
  | zero =>
    intro s h
    cases s with
    | nil => rfl
    | cons c cs => rfl
  | succ n ih =>
    intro s h
    cases s with
    | nil => rfl
    | cons c cs =>
      have h2 : hasPrefixB assignedSep (c :: cs) = false ∧ hasSubstr assignedSep cs = false := by
        simpa [hasSubstr, Bool.or_eq_false_iff] using h
      simp only [splitGo, h2.1, Bool.false_eq_true, if_false]
      rw [ih cs h2.2]

/-- `split("Assigned")` on a string with no occurrence of the marker returns
the whole string as the only piece. -/
lemma splitAssigned_no_occ (s : Chars) (h : hasSubstr assignedSep s = false) :
    splitAssigned s = [s] := splitGo_no_occ s.length s h

/-- C10.  For a transfer record the unit substring fed to `parse_unit` is the
text after the last "Assigned" occurrence: when the details text contains no
"Assigned" at all, `split("Assigned")[-1]` is the entire details string, so the
extractor feeds the whole whitespace-trimmed details to the parser and still
produces a Transfer event; and on a details text with two marker occurrences
("Assigned then reAssigned 2/3/B/2-7") the text after the *last* occurrence
(" 2/3/B/2-7") is the one parsed. -/
theorem c10_assigned_marker :
    (∀ (r : Record) (d : Int),
      r.recordType = "RECORD_TYPE_TRANSFER".toList →
      parseDate r.recordDate = some d →
      hasSubstr assignedSep r.recordDetails = false →
      extract_events [r]
        = .ok [⟨d, .transfer, UnitStrengthHistory.parse_unit (trimList r.recordDetails)⟩])
    ∧ extract_events [⟨"RECORD_TYPE_TRANSFER".toList, "2023-04-05".toList,
        "Assigned then reAssigned 2/3/B/2-7".toList⟩]
      = .ok [⟨toDays 2023 4 5, .transfer, unitB⟩] := by
  constructor
  · intro r d ht hd hnm
    have hsplit : splitAssigned r.recordDetails = [r.recordDetails] :=
      splitAssigned_no_occ _ hnm
    simp [extract_events, collectEvents, hd, eventsOfRecord, ht, hsplit, lastPart,
      List.insertionSort]
  · rfl

/-- C10 (witness).  The no-marker branch evaluated on a concrete record whose
details text is "  1/2/C/1-7  " (no "Assigned" anywhere). -/
theorem c10_witness :
    extract_events [⟨"RECORD_TYPE_TRANSFER".toList, "2023-02-03".toList, "  1/2/C/1-7  ".toList⟩]
      = .ok [⟨toDays 2023 2 3, .transfer,
          UnitStrengthHistory.parse_unit (trimList "  1/2/C/1-7  ".toList)⟩] :=
  c10_assigned_marker.1 ⟨"RECORD_TYPE_TRANSFER".toList, "2023-02-03".toList, "  1/2/C/1-7  ".toList⟩
    (toDays 2023 2 3) rfl (by decide) (by decide)

/-! ## Claim C1: interval invariants of the membership builder -/

/-- Relation packaging the C1 interval invariants between consecutive emitted
memberships, with the discharge witness drawn from `evs`. -/
def consecOk (evs : List Event) (a b : MembershipRow) : Prop :=
  a.start_date < b.start_date
    ∧ ∃ ea, a.end_date = some ea ∧ ea < b.start_date
      ∧ (ea + 1 = b.start_date ∨ ∃ ev ∈ evs, ev.event = .discharge ∧ ev.date = ea)

lemma consecOk_mono {evs evs2 : List Event} (hsub : ∀ e ∈ evs, e ∈ evs2) :
    ∀ a b : MembershipRow, consecOk evs a b → consecOk evs2 a b := by
  rintro a b ⟨h1, ea, h2, h3, h4⟩
  refine ⟨h1, ea, h2, h3, ?_⟩
  rcases h4 with h4 | ⟨ev, hev, hk, hd⟩
  · exact Or.inl h4
  · exact Or.inr ⟨ev, hsub ev hev, hk, hd⟩

lemma cmGo_invariant (now : Int) :
    ∀ (evs : List Event) (cur : Option MembershipRow),
      List.Pairwise (fun a b => a.date < b.date) evs →
      (∀ e ∈ evs, e.date ≤ now) →
      (∀ c, cur = some c → c.end_date = none ∧ c.start_date ≤ now ∧ ∀ e ∈ evs, c.start_date < e.date) →
      (∀ m ∈ cmGo now evs cur, ∃ v, m.end_date = some v ∧ m.start_date ≤ v)
      ∧ (∀ m ∈ cmGo now evs cur,
          (∃ c, cur = some c ∧ m.start_date = c.start_date)
          ∨ (∃ e ∈ evs, e.event = .transfer ∧ m.start_date = e.date))
      ∧ (∀ c, cur = some c → ∃ m t, cmGo now evs cur = m :: t ∧ m.start_date = c.start_date)
      ∧ List.Chain' (consecOk evs) (cmGo now evs cur) := by
  intro evs
  induction evs with
  | nil =>
    intro cur hpair hnow hcur
    cases cur with
    | none =>
      refine ⟨?_, ?_, ?_, ?_⟩
      · intro m hm; cases hm
      · intro m hm; cases hm
      · intro c hc; cases hc
      · simp [cmGo]
    | some c =>
      obtain ⟨hce, hcn, -⟩ := hcur c rfl
      refine ⟨?_, ?_, ?_, ?_⟩
      · intro m hm
        rcases List.mem_singleton.mp hm with rfl
        exact ⟨now, rfl, hcn⟩
      · intro m hm
        rcases List.mem_singleton.mp hm with rfl
        exact Or.inl ⟨c, rfl, rfl⟩
      · intro c0 hc0
        injection hc0 with hc0
        subst hc0
        exact ⟨_, [], rfl, rfl⟩
      · simp [cmGo]
  | cons e rest ih =>
    intro cur hpair hnow hcur
    obtain ⟨hlt, hpair2⟩ := List.pairwise_cons.mp hpair
    have hnow2 : ∀ x ∈ rest, x.date ≤ now := fun x hx => hnow x (List.mem_cons_of_mem e hx)
    have hnowe : e.date ≤ now := hnow e (List.mem_cons_self e rest)
    cases hk : e.event with
    | transfer =>
      have hcur2 : ∀ c, (some ⟨e.date, e.unit, none⟩ : Option MembershipRow) = some c →
          c.end_date = none ∧ c.start_date ≤ now ∧ ∀ x ∈ rest, c.start_date < x.date := by
        intro c hc
        injection hc with hc
        subst hc
        exact ⟨rfl, hnowe, hlt⟩
      obtain ⟨ihB, ihS, ihH, ihC⟩ := ih (some ⟨e.date, e.unit, none⟩) hpair2 hnow2 hcur2
      cases cur with
      | none =>
        have heq : cmGo now (e :: rest) none = cmGo now rest (some ⟨e.date, e.unit, none⟩) := by
          simp [cmGo, hk]
        rw [heq]
        refine ⟨ihB, ?_, ?_, ihC.imp (consecOk_mono (fun x hx => List.mem_cons_of_mem e hx))⟩
        · intro m hm
          rcases ihS m hm with ⟨c, hc, hs⟩ | ⟨e2, he2, ht2, hs2⟩
          · injection hc with hc
            subst hc
            exact Or.inr ⟨e, List.mem_cons_self e rest, hk, hs⟩
          · exact Or.inr ⟨e2, List.mem_cons_of_mem e he2, ht2, hs2⟩
        · intro c hc; cases hc
      | some c =>
        obtain ⟨hce, hcn, hclt⟩ := hcur c rfl
        have hcle : c.start_date < e.date := hclt e (List.mem_cons_self e rest)
        have heq : cmGo now (e :: rest) (some c)
            = { c with end_date := some (e.date - 1) } :: cmGo now rest (some ⟨e.date, e.unit, none⟩) := by
          simp [cmGo, hk]
        rw [heq]
        obtain ⟨m1, t1, hout, hm1s⟩ := ihH ⟨e.date, e.unit, none⟩ rfl
        refine ⟨?_, ?_, ?_, ?_⟩
        · intro m hm
          rcases List.mem_cons.mp hm with rfl | hm2
          · exact ⟨e.date - 1, rfl, show c.start_date ≤ e.date - 1 by omega⟩
          · exact ihB m hm2
        · intro m hm
          rcases List.mem_cons.mp hm with rfl | hm2
          · exact Or.inl ⟨c, rfl, rfl⟩
          · rcases ihS m hm2 with ⟨c2, hc2, hs⟩ | ⟨e2, he2, ht2, hs2⟩
            · injection hc2 with hc2
              subst hc2
              exact Or.inr ⟨e, List.mem_cons_self e rest, hk, hs⟩
            · exact Or.inr ⟨e2, List.mem_cons_of_mem e he2, ht2, hs2⟩
        · intro c0 hc0
          injection hc0 with hc0
          subst hc0
          exact ⟨_, _, rfl, rfl⟩
        · rw [hout]
          refine List.chain'_cons.mpr ⟨?_, ?_⟩
          · have hm1e : m1.start_date = e.date := hm1s
            refine ⟨show c.start_date < m1.start_date by omega, e.date - 1, rfl, by omega,
              Or.inl (by omega)⟩
          · exact (hout ▸ ihC).imp (consecOk_mono (fun x hx => List.mem_cons_of_mem e hx))
    | discharge =>
      obtain ⟨ihB, ihS, ihH, ihC⟩ := ih none hpair2 hnow2 (by intro c hc; cases hc)
      cases cur with
      | none =>
        have heq : cmGo now (e :: rest) none = cmGo now rest none := by
          simp [cmGo, hk]
        rw [heq]
        refine ⟨ihB, ?_, ?_, ihC.imp (consecOk_mono (fun x hx => List.mem_cons_of_mem e hx))⟩
        · intro m hm
          rcases ihS m hm with ⟨c, hc, -⟩ | ⟨e2, he2, ht2, hs2⟩
          · cases hc
          · exact Or.inr ⟨e2, List.mem_cons_of_mem e he2, ht2, hs2⟩
        · intro c hc; cases hc
      | some c =>
        obtain ⟨hce, hcn, hclt⟩ := hcur c rfl
        have hcle : c.start_date < e.date := hclt e (List.mem_cons_self e rest)
        have heq : cmGo now (e :: rest) (some c)
            = { c with end_date := some e.date } :: cmGo now rest none := by
          simp [cmGo, hk]
        rw [heq]
        refine ⟨?_, ?_, ?_, ?_⟩
        · intro m hm
          rcases List.mem_cons.mp hm with rfl | hm2
          · exact ⟨e.date, rfl, show c.start_date ≤ e.date by omega⟩
          · exact ihB m hm2
        · intro m hm
          rcases List.mem_cons.mp hm with rfl | hm2
          · exact Or.inl ⟨c, rfl, rfl⟩
          · rcases ihS m hm2 with ⟨c2, hc2, -⟩ | ⟨e2, he2, ht2, hs2⟩
            · cases hc2
            · exact Or.inr ⟨e2, List.mem_cons_of_mem e he2, ht2, hs2⟩
        · intro c0 hc0
          injection hc0 with hc0
          subst hc0
          exact ⟨_, _, rfl, rfl⟩
        · cases hout : cmGo now rest none with
          | nil => simp
          | cons m1 t1 =>
            refine List.chain'_cons.mpr ⟨?_, ?_⟩
            · have hm1 : m1 ∈ cmGo now rest none := by rw [hout]; exact List.mem_cons_self m1 t1
              rcases ihS m1 hm1 with ⟨c2, hc2, -⟩ | ⟨e2, he2, ht2, hs2⟩
              · cases hc2
              · have h5 : e.date < m1.start_date := by rw [hs2]; exact hlt e2 he2
                refine ⟨show c.start_date < m1.start_date by omega, e.date, rfl, h5,
                  Or.inr ⟨e, List.mem_cons_self e rest, hk, rfl⟩⟩
            · exact (hout ▸ ihC).imp (consecOk_mono (fun x hx => List.mem_cons_of_mem e hx))

/-- Event sequence for the C1 counterexample: two same-day transfers, a
discharge, then a re-enlistment transfer and a final discharge. -/
def c1Events : List Event :=
  [⟨10, .transfer, unitA⟩, ⟨10, .transfer, unitB⟩, ⟨20, .discharge, ⟨none, none, none, none⟩⟩,
   ⟨30, .transfer, unitA⟩, ⟨40, .discharge, ⟨none, none, none, none⟩⟩]

/-- C1 (counterexample).  On a date-ordered (non-decreasing) event sequence,
the claim fails twice: a transfer on the same day as an open transfer closes
the first interval at `start - 1`, violating `endDate >= startDate`; and after
a discharge a re-enlistment transfer opens the next interval with a gap, so
the earlier `endDate` is not one day before the later `startDate`.  Here the
emitted intervals are `[10, 9]`, `[10, 20]`, `[30, 40]`. -/
theorem c1_counterexample :
    List.Chain' (fun a b => a.date ≤ b.date) c1Events
    ∧ (∀ e ∈ c1Events, e.date ≤ 100)
    ∧ ¬ (∀ m ∈ create_memberships c1Events 100, ∀ v, m.end_date = some v → m.start_date ≤ v)
    ∧ ¬ List.Chain' (fun a b => ∀ v, a.end_date = some v → v + 1 = b.start_date)
        (create_memberships c1Events 100) := by
  refine ⟨by simp [c1Events, List.chain'_cons], by decide, ?_, ?_⟩
  · intro h
    exact absurd (h ⟨10, unitA, some 9⟩ (by decide) 9 rfl) (by decide)
  · intro h
    have heq : create_memberships c1Events 100
        = [⟨10, unitA, some 9⟩, ⟨10, unitB, some 20⟩, ⟨30, unitA, some 40⟩] := by decide
    rw [heq] at h
    obtain ⟨-, h2⟩ := List.chain'_cons.mp h
    obtain ⟨h3, -⟩ := List.chain'_cons.mp h2
    exact absurd (h3 20 rfl) (by decide)

/-- C1 (amended).  For an event sequence with strictly increasing dates, none
later than the reference time, the emitted membership intervals are strictly
ordered by start date, every interval is emitted closed with
`endDate >= startDate`, and consecutive intervals are non-overlapping with the
earlier `endDate` strictly before (and, when the earlier interval was closed
by a transfer rather than a discharge on `endDate`, exactly one day before)
the later `startDate`. -/
theorem c1_interval_invariants (evs : List Event) (now : Int)
    (hsorted : List.Chain' (fun a b => a.date < b.date) evs)
    (hnow : ∀ e ∈ evs, e.date ≤ now) :
    (∀ m ∈ create_memberships evs now, ∃ v, m.end_date = some v ∧ m.start_date ≤ v)
    ∧ List.Chain' (fun a b => a.start_date < b.start_date) (create_memberships evs now)
    ∧ List.Chain' (consecOk evs) (create_memberships evs now) := by
  haveI : IsTrans Event (fun a b => a.date < b.date) :=
    ⟨fun a b c h1 h2 => lt_trans h1 h2⟩
  have hpair := List.chain'_iff_pairwise.mp hsorted
  obtain ⟨hB, -, -, hC⟩ := cmGo_invariant now evs none hpair hnow (fun c hc => by cases hc)
  exact ⟨hB, hC.imp (fun a b h => h.1), hC⟩

/-- Event sequence for the C1 witness. -/
def c1WEvents : List Event :=
  [⟨5, .transfer, unitA⟩, ⟨8, .transfer, unitB⟩, ⟨12, .discharge, ⟨none, none, none, none⟩⟩]

/-- C1 (witness).  The amended invariants evaluated on a concrete strictly
increasing event sequence. -/
theorem c1_witness :
    (∀ m ∈ create_memberships c1WEvents 20, ∃ v, m.end_date = some v ∧ m.start_date ≤ v)
    ∧ List.Chain' (fun a b => a.start_date < b.start_date) (create_memberships c1WEvents 20)
    ∧ List.Chain' (consecOk c1WEvents) (create_memberships c1WEvents 20) :=
  c1_interval_invariants c1WEvents 20 (by simp [c1WEvents, List.chain'_cons]) (by decide)

/-! ## Counting lemmas for the daily-strength table -/

lemma countP_range_shift (s : Int) (n : Nat) (d : Int) :
    (List.range n).countP (fun (i : Nat) => decide (s + (i : Int) = d))
      = if s ≤ d ∧ d < s + (n : Int) then 1 else 0 := by
  induction n with
  | zero =>
    simp only [List.range_zero, List.countP_nil, Nat.cast_zero]
    split <;> omega
  | succ n ih =>
    rw [List.range_succ, List.countP_append, ih]
    simp only [List.countP_cons, List.countP_nil, decide_eq_true_eq]
    push_cast
    by_cases h2 : s + (n : Int) = d
    · rw [if_pos h2, if_neg (by omega), if_pos (by omega)]
    · rw [if_neg h2]
      by_cases h1 : s ≤ d ∧ d < s + (n : Int)
      · rw [if_pos h1, if_pos (by omega)]
      · rw [if_neg h1, if_neg (by omega)]

lemma countP_dateRange (s e d : Int) :
    (dateRange s (some e)).countP (fun x => decide (x = d)) = if s ≤ d ∧ d ≤ e then 1 else 0 := by
  simp only [dateRange, List.countP_map]
  have hcong : ∀ i ∈ List.range (e + 1 - s).toNat,
      (((fun x => decide (x = d)) ∘ (fun (i : Nat) => s + (i : Int))) i = true
        ↔ (fun (i : Nat) => decide (s + (i : Int) = d)) i = true) := by
    intro i hi
    simp
  rw [List.countP_congr hcong, countP_range_shift]
  have hiff : (s ≤ d ∧ d < s + (((e + 1 - s).toNat : Nat) : Int)) ↔ (s ≤ d ∧ d ≤ e) := by omega
  rw [if_congr hiff rfl rfl]

lemma countP_pair_map (l : List Int) (c u : Unit4) (d : Int) :
    (l.map (fun x => (x, c))).countP (fun r => decide (r = (d, u)))
      = if c = u then l.countP (fun x => decide (x = d)) else 0 := by
  rw [List.countP_map]
  by_cases hc : c = u
  · subst hc
    rw [if_pos rfl]
    apply List.countP_congr
    intro x hx
    simp [Prod.ext_iff]
  · rw [if_neg hc, List.countP_eq_zero]
    intro x hx
    simp only [Function.comp_apply, decide_eq_true_eq, Prod.mk.injEq]
    rintro ⟨-, h⟩
    exact hc h

lemma keyCount_eq_countP (rows : List (Int × Unit4)) (k : Int × Unit4) :
    UnitStrengthHistory.keyCount rows k = rows.countP (fun r => decide (r = k)) :=
  (List.countP_eq_length_filter _ _).symm

/-- The membership-row predicate underlying `coveringCount`. -/
def coversKey (d : Int) (u : Unit4) (m : MembershipRow) : Bool :=
  m.unit == u && decide (m.start_date ≤ d)
    && (match m.end_date with | none => false | some e => decide (d ≤ e))

lemma coveringCount_eq_countP (ms : List MembershipRow) (d : Int) (u : Unit4) :
    coveringCount ms d u = ms.countP (coversKey d u) :=
  (List.countP_eq_length_filter _ _).symm

lemma keyCount_dailyRows (ms : List MembershipRow) (d : Int) (u : Unit4) :
    UnitStrengthHistory.keyCount (UnitStrengthHistory.dailyRows ms) (d, u)
      = coveringCount ms d u := by
  rw [keyCount_eq_countP, coveringCount_eq_countP]
  induction ms with
  | nil => rfl
  | cons m rest ih =>
    rw [show UnitStrengthHistory.dailyRows (m :: rest)
        = (dateRange m.start_date m.end_date).map (fun x => (x, m.unit))
          ++ UnitStrengthHistory.dailyRows rest from rfl,
      List.countP_append, ih, List.countP_cons, countP_pair_map]
    cases he : m.end_date with
    | none =>
      have hck : coversKey d u m = false := by
        simp [coversKey, he]
      rw [hck]
      simp [dateRange]
    | some e2 =>
      rw [countP_dateRange]
      have hck : coversKey d u m
          = (m.unit == u && decide (m.start_date ≤ d) && decide (d ≤ e2)) := by
        simp [coversKey, he]
      rw [hck]
      by_cases hu2 : m.unit = u
      · by_cases hs : m.start_date ≤ d
        · by_cases hd2 : d ≤ e2
          · rw [if_pos hu2, if_pos ⟨hs, hd2⟩, if_pos (by simp [hu2, hs, hd2])]
            omega
          · rw [if_pos hu2, if_neg (fun h => hd2 h.2), if_neg (by simp [hd2])]
            omega
        · rw [if_pos hu2, if_neg (fun h => hs h.1), if_neg (by simp [hs])]
          omega
      · rw [if_neg hu2, if_neg (by simp [hu2])]
        omega

lemma mem_daily_iff (ms : List MembershipRow) (d : Int) (u : Unit4) (c : Nat)
    (hu : fullUnit u = true) :
    (d, u, c) ∈ UnitStrengthHistory.calculate_daily_strength ms
      ↔ (c = coveringCount ms d u ∧ 1 ≤ c) := by
  have hperm := List.perm_insertionSort (fun a b => dailyKeyLe a b = true)
    (((UnitStrengthHistory.dailyRows ms).filter (fun r => fullUnit r.2)).dedup)
  have htab : UnitStrengthHistory.calculate_daily_strength ms
      = (List.insertionSort (fun a b => dailyKeyLe a b = true)
          (((UnitStrengthHistory.dailyRows ms).filter (fun r => fullUnit r.2)).dedup)).map
        (fun k => (k.1, k.2, UnitStrengthHistory.keyCount (UnitStrengthHistory.dailyRows ms) k)) := rfl
  rw [htab, List.mem_map]
  constructor
  · rintro ⟨k, hk, hkeq⟩
    have hk2 : k ∈ ((UnitStrengthHistory.dailyRows ms).filter (fun r => fullUnit r.2)).dedup :=
      hperm.mem_iff.mp hk
    have hkr : k ∈ UnitStrengthHistory.dailyRows ms :=
      (List.mem_filter.mp (List.mem_dedup.mp hk2)).1
    obtain ⟨h1, h23⟩ := Prod.mk.injEq .. ▸ hkeq
    obtain ⟨h2, h3⟩ := Prod.mk.injEq .. ▸ h23
    have hkdu : k = (d, u) := by
      cases k
      simp_all
    subst hkdu
    constructor
    · rw [← h3, keyCount_dailyRows]
    · rw [← h3, keyCount_eq_countP]
      exact List.countP_pos_iff.mpr ⟨(d, u), hkr, by simp⟩
  · rintro ⟨hc, hpos⟩
    have hmem : (d, u) ∈ UnitStrengthHistory.dailyRows ms := by
      have hcnt : 0 < (UnitStrengthHistory.dailyRows ms).countP (fun r => decide (r = (d, u))) := by
        rw [← keyCount_eq_countP, keyCount_dailyRows]
        omega
      obtain ⟨r, hr, hrd⟩ := List.countP_pos_iff.mp hcnt
      have hrdu : r = (d, u) := of_decide_eq_true hrd
      rwa [hrdu] at hr
    refine ⟨(d, u), hperm.mem_iff.mpr (List.mem_dedup.mpr (List.mem_filter.mpr ⟨hmem, hu⟩)), ?_⟩
    show (d, u, UnitStrengthHistory.keyCount (UnitStrengthHistory.dailyRows ms) (d, u)) = (d, u, c)
    rw [keyCount_dailyRows, ← hc]

/-! ## Claim C6: the daily-strength table counts covering intervals -/

/-- A unit designator with an absent (unknown) squad field. -/
def unitPartial : Unit4 := ⟨none, some "2".toList, some "B".toList, some "2-7".toList⟩

/-- C6 (counterexample).  The claim quantifies over every unit, including
designators with absent fields; for those, pandas `groupby` drops the rows, so
a membership interval covering day 10 with a partially-unknown unit yields an
empty daily table even though the covering count at (10, unit) is 1 — the
"row appears exactly when the count is at least 1" biconditional fails. -/
theorem c6_counterexample :
    coveringCount [⟨10, unitPartial, some 12⟩] 10 unitPartial = 1
    ∧ UnitStrengthHistory.calculate_daily_strength [⟨10, unitPartial, some 12⟩] = []
    ∧ (10, unitPartial, (1 : Nat))
        ∉ UnitStrengthHistory.calculate_daily_strength [⟨10, unitPartial, some 12⟩] := by
  refine ⟨by decide, by decide, by decide⟩

/-- C6 (amended).  For units with all four fields present, the daily-strength
table contains the row `(D, U, c)` exactly when `c` is the number of
membership intervals of unit `U` whose inclusive span contains `D` and that
count is at least 1; intervals whose unit has an absent field contribute to no
row. -/
theorem c6_daily_strength_count (ms : List MembershipRow) (d : Int) (u : Unit4) (c : Nat)
    (hu : fullUnit u = true) :
    (d, u, c) ∈ UnitStrengthHistory.calculate_daily_strength ms
      ↔ (c = coveringCount ms d u ∧ 1 ≤ c) :=
  mem_daily_iff ms d u c hu

/-- Membership rows for the C6 witness: two overlapping intervals of the same
unit. -/
def c6WMs : List MembershipRow := [⟨5, unitA, some 7⟩, ⟨6, unitA, some 6⟩]

/-- C6 (witness).  The amended biconditional evaluated at day 6, where both
intervals overlap. -/
theorem c6_witness :
    fullUnit unitA = true
    ∧ ((6, unitA, (2 : Nat)) ∈ UnitStrengthHistory.calculate_daily_strength c6WMs
        ↔ (2 = coveringCount c6WMs 6 unitA ∧ 1 ≤ 2)) :=
  ⟨by decide, c6_daily_strength_count c6WMs 6 unitA 2 (by decide)⟩

/-! ## Claim C5: a member with a single open transfer -/

/-- The claim's pinned "as-of" date, 2023-06-01, as a day number. -/
def asOfJune2023 : Int := toDays 2023 6 1

/-- C5 (counterexample).  The claim says the final interval of a member whose
events end with an open transfer is emitted with `endDate` absent; the source
instead fills `end_date` with the `datetime.now()` read, so no emitted
interval has an absent end date. -/
theorem c5_counterexample :
    create_memberships [⟨toDays 2023 1 15, .transfer, unitA⟩] asOfJune2023
      = [⟨toDays 2023 1 15, unitA, some asOfJune2023⟩]
    ∧ ∀ m ∈ create_memberships [⟨toDays 2023 1 15, .transfer, unitA⟩] asOfJune2023,
        m.end_date ≠ none := by
  refine ⟨by decide, by decide⟩

/-- C5 (amended).  A member whose only event is a transfer at `s` yields one
interval with `end_date` equal to the clock read (the as-of instant
2023-06-01), not absent; and in the daily-strength table of that member the
(day, unit) bucket holds one count for every day from `s` through 2023-06-01
inclusive. -/
theorem c5_open_interval (s d : Int) (u : Unit4) (hu : fullUnit u = true)
    (h1 : s ≤ d) (h2 : d ≤ asOfJune2023) :
    create_memberships [⟨s, .transfer, u⟩] asOfJune2023 = [⟨s, u, some asOfJune2023⟩]
    ∧ (d, u, 1) ∈ UnitStrengthHistory.calculate_daily_strength [⟨s, u, some asOfJune2023⟩] := by
  refine ⟨rfl, ?_⟩
  rw [mem_daily_iff _ _ _ _ hu]
  refine ⟨?_, le_refl 1⟩
  rw [coveringCount_eq_countP]
  simp [coversKey, h1, h2, List.countP_cons]

/-- C5 (witness).  The amended statement at a concrete start date
(2023-05-20) and bucket day (2023-05-25). -/
theorem c5_witness :
    create_memberships [⟨toDays 2023 5 20, .transfer, unitA⟩] asOfJune2023
      = [⟨toDays 2023 5 20, unitA, some asOfJune2023⟩]
    ∧ (toDays 2023 5 25, unitA, 1) ∈ UnitStrengthHistory.calculate_daily_strength
        [⟨toDays 2023 5 20, unitA, some asOfJune2023⟩] :=
  c5_open_interval (toDays 2023 5 20) (toDays 2023 5 25) unitA (by decide) (by decide) (by decide)

/-! ## Claim C3: intervals with absent unit fields in the aggregations -/

lemma dailyRows_filter_full (ms : List MembershipRow) :
    (UnitStrengthHistory.dailyRows ms).filter (fun r => fullUnit r.2)
      = UnitStrengthHistory.dailyRows (ms.filter (fun m => fullUnit m.unit)) := by
  induction ms with
  | nil => rfl
  | cons m rest ih =>
    rw [show UnitStrengthHistory.dailyRows (m :: rest)
        = (dateRange m.start_date m.end_date).map (fun x => (x, m.unit))
          ++ UnitStrengthHistory.dailyRows rest from rfl,
      List.filter_append, ih, List.filter_cons]
    by_cases hm : fullUnit m.unit = true
    · rw [if_pos hm,
        show UnitStrengthHistory.dailyRows (m :: rest.filter (fun m2 => fullUnit m2.unit))
          = (dateRange m.start_date m.end_date).map (fun x => (x, m.unit))
            ++ UnitStrengthHistory.dailyRows (rest.filter (fun m2 => fullUnit m2.unit)) from rfl,
        List.filter_eq_self.mpr]
      intro r hr
      obtain ⟨x, -, rfl⟩ := List.mem_map.mp hr
      exact hm
    · rw [if_neg hm, List.filter_eq_nil_iff.mpr, List.nil_append]
      intro r hr
      obtain ⟨x, -, rfl⟩ := List.mem_map.mp hr
      simpa using hm

lemma coveringCount_filter_full (ms : List MembershipRow) (d : Int) (u : Unit4)
    (hu : fullUnit u = true) :
    coveringCount (ms.filter (fun m => fullUnit m.unit)) d u = coveringCount ms d u := by
  rw [coveringCount_eq_countP, coveringCount_eq_countP]
  induction ms with
  | nil => rfl
  | cons m rest ih =>
    rw [List.filter_cons]
    by_cases hm : fullUnit m.unit = true
    · rw [if_pos hm, List.countP_cons, List.countP_cons, ih]
    · rw [if_neg hm, List.countP_cons, ih]
      have hck : coversKey d u m = false := by
        simp only [coversKey, Bool.and_eq_false_iff, beq_eq_false_iff_ne, ne_eq]
        left
        left
        intro hequ
        rw [hequ, hu] at hm
        exact hm rfl
      rw [hck]
      simp

lemma daily_strength_filter_eq (ms : List MembershipRow) :
    UnitStrengthHistory.calculate_daily_strength ms
      = UnitStrengthHistory.calculate_daily_strength (ms.filter (fun m => fullUnit m.unit)) := by
  have hrows := dailyRows_filter_full ms
  have hrows2 := dailyRows_filter_full (ms.filter (fun m => fullUnit m.unit))
  have hms2 : (ms.filter (fun m => fullUnit m.unit)).filter (fun m => fullUnit m.unit)
      = ms.filter (fun m => fullUnit m.unit) :=
    List.filter_eq_self.mpr (fun m hm => (List.mem_filter.mp hm).2)
  rw [show UnitStrengthHistory.calculate_daily_strength ms
      = (List.insertionSort (fun a b => dailyKeyLe a b = true)
          (((UnitStrengthHistory.dailyRows ms).filter (fun r => fullUnit r.2)).dedup)).map
        (fun k => (k.1, k.2, UnitStrengthHistory.keyCount (UnitStrengthHistory.dailyRows ms) k))
      from rfl,
    show UnitStrengthHistory.calculate_daily_strength (ms.filter (fun m => fullUnit m.unit))
      = (List.insertionSort (fun a b => dailyKeyLe a b = true)
          (((UnitStrengthHistory.dailyRows (ms.filter (fun m => fullUnit m.unit))).filter
            (fun r => fullUnit r.2)).dedup)).map
        (fun k => (k.1, k.2, UnitStrengthHistory.keyCount
          (UnitStrengthHistory.dailyRows (ms.filter (fun m => fullUnit m.unit))) k))
      from rfl,
    hrows, hrows2, hms2]
  apply List.map_congr_left
  intro k hk
  have hkfull : fullUnit k.2 = true := by
    have hk2 := (List.perm_insertionSort (fun a b => dailyKeyLe a b = true)
      ((UnitStrengthHistory.dailyRows (ms.filter (fun m => fullUnit m.unit))).dedup)).mem_iff.mp hk
    have hk3 := List.mem_dedup.mp hk2
    rw [← dailyRows_filter_full ms] at hk3
    exact (List.mem_filter.mp hk3).2
  have hket : k = (k.1, k.2) := rfl
  rw [show UnitStrengthHistory.keyCount (UnitStrengthHistory.dailyRows ms) k
      = coveringCount ms k.1 k.2 from hket ▸ keyCount_dailyRows ms k.1 k.2,
    show UnitStrengthHistory.keyCount
        (UnitStrengthHistory.dailyRows (ms.filter (fun m => fullUnit m.unit))) k
      = coveringCount (ms.filter (fun m => fullUnit m.unit)) k.1 k.2
      from hket ▸ keyCount_dailyRows (ms.filter (fun m => fullUnit m.unit)) k.1 k.2,
    coveringCount_filter_full ms k.1 k.2 hkfull]

lemma groupOf_filter_full (ms : List MembershipRow) (k : Chars × Unit4)
    (hk : fullUnit k.2 = true) :
    CohortRetentionAnalysis.groupOf (ms.filter (fun m => fullUnit m.unit)) k
      = CohortRetentionAnalysis.groupOf ms k := by
  show (ms.filter (fun m => fullUnit m.unit)).filter
      (fun m => CohortRetentionAnalysis.memberKey m == k)
    = ms.filter (fun m => CohortRetentionAnalysis.memberKey m == k)
  rw [List.filter_filter]
  apply List.filter_congr
  intro m hm
  cases hmk : (CohortRetentionAnalysis.memberKey m == k) with
  | false => simp
  | true =>
    simp only [Bool.true_and]
    have hkey : CohortRetentionAnalysis.memberKey m = k := by simpa using hmk
    have hum : m.unit = k.2 := congrArg Prod.snd hkey
    rw [hum, hk]

lemma retention_keys_full (ms : List MembershipRow) :
    ∀ k ∈ List.insertionSort (fun a b => CohortRetentionAnalysis.cohortKeyLe a b = true)
        (((ms.filter (fun m => fullUnit m.unit)).map CohortRetentionAnalysis.memberKey).dedup),
      fullUnit k.2 = true := by
  intro k hk
  have hk2 := (List.perm_insertionSort
    (fun a b => CohortRetentionAnalysis.cohortKeyLe a b = true)
    (((ms.filter (fun m => fullUnit m.unit)).map CohortRetentionAnalysis.memberKey).dedup)).mem_iff.mp hk
  obtain ⟨m, hm, rfl⟩ := List.mem_map.mp (List.mem_dedup.mp hk2)
  exact (List.mem_filter.mp hm).2

lemma retention_filter_eq (ms : List MembershipRow) (intervals : List Nat) :
    CohortRetentionAnalysis.calculate_retention ms intervals
      = CohortRetentionAnalysis.calculate_retention
          (ms.filter (fun m => fullUnit m.unit)) intervals := by
  have hms2 : (ms.filter (fun m => fullUnit m.unit)).filter (fun m => fullUnit m.unit)
      = ms.filter (fun m => fullUnit m.unit) :=
    List.filter_eq_self.mpr (fun m hm => (List.mem_filter.mp hm).2)
  rw [show CohortRetentionAnalysis.calculate_retention ms intervals
      = (List.insertionSort (fun a b => CohortRetentionAnalysis.cohortKeyLe a b = true)
          (((ms.filter (fun m => fullUnit m.unit)).map CohortRetentionAnalysis.memberKey).dedup)).map
        (fun k =>
          { cohort := k.1, unit := k.2,
            totalMembers := (CohortRetentionAnalysis.groupOf ms k).length,
            retention := intervals.map fun h =>
              (h, CohortRetentionAnalysis.retentionAt (CohortRetentionAnalysis.groupOf ms k) h) })
      from rfl,
    show CohortRetentionAnalysis.calculate_retention (ms.filter (fun m => fullUnit m.unit)) intervals
      = (List.insertionSort (fun a b => CohortRetentionAnalysis.cohortKeyLe a b = true)
          ((((ms.filter (fun m => fullUnit m.unit)).filter (fun m => fullUnit m.unit)).map
            CohortRetentionAnalysis.memberKey).dedup)).map
        (fun k =>
          { cohort := k.1, unit := k.2,
            totalMembers :=
              (CohortRetentionAnalysis.groupOf (ms.filter (fun m => fullUnit m.unit)) k).length,
            retention := intervals.map fun h =>
              (h, CohortRetentionAnalysis.retentionAt
                (CohortRetentionAnalysis.groupOf (ms.filter (fun m => fullUnit m.unit)) k) h) })
      from rfl,
    hms2]
  apply List.map_congr_left
  intro k hk
  rw [groupOf_filter_full ms k (retention_keys_full ms k hk)]

lemma daily_keys_full (ms : List MembershipRow) :
    ∀ k ∈ List.insertionSort (fun a b => dailyKeyLe a b = true)
        (((UnitStrengthHistory.dailyRows ms).filter (fun r => fullUnit r.2)).dedup),
      fullUnit k.2 = true := by
  intro k hk
  have hk2 := (List.perm_insertionSort (fun a b => dailyKeyLe a b = true)
    (((UnitStrengthHistory.dailyRows ms).filter (fun r => fullUnit r.2)).dedup)).mem_iff.mp hk
  exact (List.mem_filter.mp (List.mem_dedup.mp hk2)).2

/-- Membership rows for the C3 counterexample: one interval whose platoon
field is absent. -/
def c3Ms : List MembershipRow :=
  [⟨20, ⟨some "1".toList, none, some "A".toList, some "1-7".toList⟩, some 25⟩]

/-- C3 (counterexample).  The claim says intervals with absent unit fields
form their own "unknown" bucket in both aggregations; instead pandas
`groupby` (default `dropna=True`) silently drops them: a nonempty population
consisting of one partially-unknown interval produces an empty daily-strength
table and an empty retention table. -/
theorem c3_counterexample :
    c3Ms ≠ []
    ∧ UnitStrengthHistory.calculate_daily_strength c3Ms = []
    ∧ CohortRetentionAnalysis.calculate_retention c3Ms [30] = [] :=
  ⟨by decide, by decide, by decide⟩

/-- C3 (amended).  Membership intervals whose unit has an absent field are
silently excluded from both aggregations — dropped, not merged and not
bucketed: both output tables are unchanged when such intervals are removed
from the population, and every emitted row carries a fully-present unit. -/
theorem c3_unknown_dropped (ms : List MembershipRow) (intervals : List Nat) :
    UnitStrengthHistory.calculate_daily_strength ms
      = UnitStrengthHistory.calculate_daily_strength (ms.filter (fun m => fullUnit m.unit))
    ∧ CohortRetentionAnalysis.calculate_retention ms intervals
      = CohortRetentionAnalysis.calculate_retention
          (ms.filter (fun m => fullUnit m.unit)) intervals
    ∧ (∀ r ∈ UnitStrengthHistory.calculate_daily_strength ms, fullUnit r.2.1 = true)
    ∧ (∀ row ∈ CohortRetentionAnalysis.calculate_retention ms intervals,
        fullUnit row.unit = true) := by
  refine ⟨daily_strength_filter_eq ms, retention_filter_eq ms intervals, ?_, ?_⟩
  · intro r hr
    rw [show UnitStrengthHistory.calculate_daily_strength ms
        = (List.insertionSort (fun a b => dailyKeyLe a b = true)
            (((UnitStrengthHistory.dailyRows ms).filter (fun r => fullUnit r.2)).dedup)).map
          (fun k => (k.1, k.2, UnitStrengthHistory.keyCount (UnitStrengthHistory.dailyRows ms) k))
        from rfl] at hr
    obtain ⟨k, hk, rfl⟩ := List.mem_map.mp hr
    exact daily_keys_full ms k hk
  · intro row hrow
    rw [show CohortRetentionAnalysis.calculate_retention ms intervals
        = (List.insertionSort (fun a b => CohortRetentionAnalysis.cohortKeyLe a b = true)
            (((ms.filter (fun m => fullUnit m.unit)).map
              CohortRetentionAnalysis.memberKey).dedup)).map
          (fun k =>
            { cohort := k.1, unit := k.2,
              totalMembers := (CohortRetentionAnalysis.groupOf ms k).length,
              retention := intervals.map fun h =>
                (h, CohortRetentionAnalysis.retentionAt
                  (CohortRetentionAnalysis.groupOf ms k) h) })
        from rfl] at hrow
    obtain ⟨k, hk, rfl⟩ := List.mem_map.mp hrow
    exact retention_keys_full ms k hk

/-- Membership rows for the C3 witness: one fully-known interval and one
partially-unknown interval. -/
def c3WMs : List MembershipRow := [⟨5, unitA, some 6⟩, ⟨5, unitPartial, some 6⟩]

/-- C3 (witness).  The amended statement evaluated on a mixed population:
dropping the partially-unknown interval leaves the daily table unchanged, and
the table's first row carries a fully-present unit. -/
theorem c3_witness :
    UnitStrengthHistory.calculate_daily_strength c3WMs
      = UnitStrengthHistory.calculate_daily_strength (c3WMs.filter (fun m => fullUnit m.unit))
    ∧ fullUnit ((5 : Int), unitA, (1 : Nat)).2.1 = true :=
  ⟨(c3_unknown_dropped c3WMs [30]).1,
   (c3_unknown_dropped c3WMs [30]).2.2.1 (5, unitA, 1) (by decide)⟩

/-! ## Claim C7: rounding and monotonicity of retention percentages -/

lemma floor_le_rhe (x : Rat) : ⌊x⌋ ≤ CohortRetentionAnalysis.rhe x := by
  unfold CohortRetentionAnalysis.rhe
  split_ifs <;> omega

lemma rhe_le_floor_add_one (x : Rat) : CohortRetentionAnalysis.rhe x ≤ ⌊x⌋ + 1 := by
  unfold CohortRetentionAnalysis.rhe
  split_ifs <;> omega

lemma rhe_mono {x y : Rat} (h : x ≤ y) :
    CohortRetentionAnalysis.rhe x ≤ CohortRetentionAnalysis.rhe y := by
  rcases lt_or_eq_of_le (Int.floor_mono h) with hf | hf
  · calc CohortRetentionAnalysis.rhe x ≤ ⌊x⌋ + 1 := rhe_le_floor_add_one x
      _ ≤ ⌊y⌋ := by omega
      _ ≤ CohortRetentionAnalysis.rhe y := floor_le_rhe y
  · have hr : x - (⌊x⌋ : Rat) ≤ y - (⌊y⌋ : Rat) := by
      rw [← hf]
      linarith
    unfold CohortRetentionAnalysis.rhe
    rw [← hf]
    split_ifs with h1 h2 h3 h4 h5 h6 h7 h8 h9 <;> first | omega | linarith

lemma rhe_intCast (n : Int) : CohortRetentionAnalysis.rhe ((n : Int) : Rat) = n := by
  unfold CohortRetentionAnalysis.rhe
  rw [Int.floor_intCast]
  rw [if_pos]
  · simp


lemma pyRound2_mono {a b : Rat} (h : a ≤ b) :
    CohortRetentionAnalysis.pyRound2 a ≤ CohortRetentionAnalysis.pyRound2 b := by
  unfold CohortRetentionAnalysis.pyRound2
  have h2 : CohortRetentionAnalysis.rhe (a * 100) ≤ CohortRetentionAnalysis.rhe (b * 100) :=
    rhe_mono (by linarith)
  have h3 : ((CohortRetentionAnalysis.rhe (a * 100) : Int) : Rat)
      ≤ ((CohortRetentionAnalysis.rhe (b * 100) : Int) : Rat) := Int.cast_le.mpr h2
  linarith

lemma pyRound2_bounds {q : Rat} (h0 : 0 ≤ q) (h1 : q ≤ 100) :
    0 ≤ CohortRetentionAnalysis.pyRound2 q ∧ CohortRetentionAnalysis.pyRound2 q ≤ 100 := by
  have hlo : CohortRetentionAnalysis.rhe ((0 : Int) : Rat) ≤ CohortRetentionAnalysis.rhe (q * 100) :=
    rhe_mono (by push_cast; linarith)
  have hhi : CohortRetentionAnalysis.rhe (q * 100)
      ≤ CohortRetentionAnalysis.rhe ((10000 : Int) : Rat) :=
    rhe_mono (by push_cast; linarith)
  rw [rhe_intCast] at hlo hhi
  unfold CohortRetentionAnalysis.pyRound2
  constructor
  · have : (0 : Rat) ≤ ((CohortRetentionAnalysis.rhe (q * 100) : Int) : Rat) := by
      exact_mod_cast hlo
    linarith
  · have : ((CohortRetentionAnalysis.rhe (q * 100) : Int) : Rat) ≤ 10000 := by
      exact_mod_cast hhi
    linarith

lemma retainedCount_le_length (g : List MembershipRow) (cd : Int) :
    CohortRetentionAnalysis.retainedCount g cd ≤ g.length :=
  List.length_filter_le _ g

lemma retainedCount_antitone (g : List MembershipRow) {c1 c2 : Int} (h : c1 ≤ c2) :
    CohortRetentionAnalysis.retainedCount g c2 ≤ CohortRetentionAnalysis.retainedCount g c1 := by
  unfold CohortRetentionAnalysis.retainedCount
  rw [← List.countP_eq_length_filter, ← List.countP_eq_length_filter]
  apply List.countP_mono_left
  intro m hm
  cases m.end_date with
  | none => simp
  | some e =>
    simp only [decide_eq_true_eq]
    omega

lemma retentionAt_bounds (g : List MembershipRow) (hg : g ≠ []) (h : Nat) :
    0 ≤ CohortRetentionAnalysis.retentionAt g h
      ∧ CohortRetentionAnalysis.retentionAt g h ≤ 100 := by
  have hlen : 0 < g.length := List.length_pos.mpr hg
  have hlenq : (0 : Rat) < (g.length : Nat) := by exact_mod_cast hlen
  set rc := CohortRetentionAnalysis.retainedCount g
    (CohortRetentionAnalysis.minStart g + (h : Int)) with hrc
  have hq0 : (0 : Rat) ≤ ((rc : Nat) : Rat) / ((g.length : Nat) : Rat) * 100 := by
    have : (0 : Rat) ≤ ((rc : Nat) : Rat) / ((g.length : Nat) : Rat) :=
      div_nonneg (by positivity) (le_of_lt hlenq)
    linarith
  have hq1 : ((rc : Nat) : Rat) / ((g.length : Nat) : Rat) * 100 ≤ 100 := by
    have hrcle : ((rc : Nat) : Rat) ≤ ((g.length : Nat) : Rat) := by
      exact_mod_cast retainedCount_le_length g _
    have : ((rc : Nat) : Rat) / ((g.length : Nat) : Rat) ≤ 1 :=
      (div_le_one hlenq).mpr hrcle
    linarith
  exact pyRound2_bounds hq0 hq1

lemma retentionAt_antitone (g : List MembershipRow) (hg : g ≠ []) {h1 h2 : Nat}
    (h : h1 ≤ h2) :
    CohortRetentionAnalysis.retentionAt g h2 ≤ CohortRetentionAnalysis.retentionAt g h1 := by
  have hlen : 0 < g.length := List.length_pos.mpr hg
  have hlenq : (0 : Rat) < (g.length : Nat) := by exact_mod_cast hlen
  apply pyRound2_mono
  have hrc : CohortRetentionAnalysis.retainedCount g
        (CohortRetentionAnalysis.minStart g + (h2 : Int))
      ≤ CohortRetentionAnalysis.retainedCount g
        (CohortRetentionAnalysis.minStart g + (h1 : Int)) :=
    retainedCount_antitone g (by omega)
  have hrcq : ((CohortRetentionAnalysis.retainedCount g
        (CohortRetentionAnalysis.minStart g + (h2 : Int)) : Nat) : Rat)
      ≤ ((CohortRetentionAnalysis.retainedCount g
        (CohortRetentionAnalysis.minStart g + (h1 : Int)) : Nat) : Rat) := by
    exact_mod_cast hrc
  exact mul_le_mul_of_nonneg_right ((div_le_div_iff_of_pos_right hlenq).mpr hrcq) (by norm_num)

/-- C7.  Every retention percentage emitted by `calculate_retention` lies in
[0, 100], and within one row the percentage at a smaller horizon is at least
the percentage at a larger horizon: the check date grows with the horizon, the
set of intervals with `end_date >= checkDate` shrinks, and exact
round-half-to-even is monotone.  (The source computes the percentage in
floating point; the embedding uses exact rational arithmetic, and `NaT >=`
comparing false matches intervals that never have absent ends here.) -/
theorem c7_retention_bounds_monotone (ms : List MembershipRow) (intervals : List Nat)
    (row : CohortRetentionAnalysis.CohortRow)
    (hrow : row ∈ CohortRetentionAnalysis.calculate_retention ms intervals) :
    (∀ hp ∈ row.retention, 0 ≤ hp.2 ∧ hp.2 ≤ 100)
    ∧ ∀ hp1 ∈ row.retention, ∀ hp2 ∈ row.retention, hp1.1 < hp2.1 → hp2.2 ≤ hp1.2 := by
  rw [show CohortRetentionAnalysis.calculate_retention ms intervals
      = (List.insertionSort (fun a b => CohortRetentionAnalysis.cohortKeyLe a b = true)
          (((ms.filter (fun m => fullUnit m.unit)).map CohortRetentionAnalysis.memberKey).dedup)).map
        (fun k =>
          { cohort := k.1, unit := k.2,
            totalMembers := (CohortRetentionAnalysis.groupOf ms k).length,
            retention := intervals.map fun h =>
              (h, CohortRetentionAnalysis.retentionAt (CohortRetentionAnalysis.groupOf ms k) h) })
      from rfl] at hrow
  obtain ⟨k, hk, rfl⟩ := List.mem_map.mp hrow
  have hg : CohortRetentionAnalysis.groupOf ms k ≠ [] := by
    have hk2 := (List.perm_insertionSort
      (fun a b => CohortRetentionAnalysis.cohortKeyLe a b = true)
      (((ms.filter (fun m => fullUnit m.unit)).map CohortRetentionAnalysis.memberKey).dedup)).mem_iff.mp hk
    obtain ⟨m, hm, hkey⟩ := List.mem_map.mp (List.mem_dedup.mp hk2)
    have hmms : m ∈ ms := (List.mem_filter.mp hm).1
    have hmg : m ∈ CohortRetentionAnalysis.groupOf ms k :=
      List.mem_filter.mpr ⟨hmms, by simp [hkey]⟩
    exact List.ne_nil_of_mem hmg
  constructor
  · rintro ⟨h, p⟩ hp
    obtain ⟨h0, -, heq⟩ := List.mem_map.mp hp
    obtain ⟨-, rfl⟩ := Prod.mk.injEq .. ▸ heq
    exact retentionAt_bounds _ hg h0
  · rintro ⟨h1, p1⟩ hp1 ⟨h2, p2⟩ hp2 hlt
    obtain ⟨h01, -, heq1⟩ := List.mem_map.mp hp1
    obtain ⟨he1, rfl⟩ := Prod.mk.injEq .. ▸ heq1
    obtain ⟨h02, -, heq2⟩ := List.mem_map.mp hp2
    obtain ⟨he2, rfl⟩ := Prod.mk.injEq .. ▸ heq2
    subst he1
    subst he2
    exact retentionAt_antitone _ hg (le_of_lt hlt)

/-- Membership rows for the C7 witness: two intervals in the same cohort
month and unit, one long-lived and one closing after four days. -/
def c7WMs : List MembershipRow := [⟨100, unitA, some 140⟩, ⟨105, unitA, some 104⟩]

/-- The (cohort, unit) group key of both C7 witness rows. -/
def c7Key : Chars × Unit4 := ("0001-04".toList, unitA)

/-- The output row of `calculate_retention` at the C7 witness key. -/
def c7Row : CohortRetentionAnalysis.CohortRow :=
  { cohort := c7Key.1, unit := c7Key.2,
    totalMembers := (CohortRetentionAnalysis.groupOf c7WMs c7Key).length,
    retention := [30, 60].map fun h =>
      (h, CohortRetentionAnalysis.retentionAt (CohortRetentionAnalysis.groupOf c7WMs c7Key) h) }

/-- C7 (witness).  The bounds and monotonicity applied to the concrete group:
retention at horizon 30 lies in [0, 100] and retention at horizon 60 does not
exceed it. -/
theorem c7_witness :
    (0 ≤ CohortRetentionAnalysis.retentionAt (CohortRetentionAnalysis.groupOf c7WMs c7Key) 30
      ∧ CohortRetentionAnalysis.retentionAt (CohortRetentionAnalysis.groupOf c7WMs c7Key) 30 ≤ 100)
    ∧ CohortRetentionAnalysis.retentionAt (CohortRetentionAnalysis.groupOf c7WMs c7Key) 60
      ≤ CohortRetentionAnalysis.retentionAt (CohortRetentionAnalysis.groupOf c7WMs c7Key) 30 := by
  have hk : c7Key ∈ List.insertionSort
      (fun a b => CohortRetentionAnalysis.cohortKeyLe a b = true)
      (((c7WMs.filter (fun m => fullUnit m.unit)).map CohortRetentionAnalysis.memberKey).dedup) := by
    decide
  have hrow : c7Row ∈ CohortRetentionAnalysis.calculate_retention c7WMs [30, 60] :=
    List.mem_map_of_mem _ hk
  obtain ⟨hb, hm⟩ := c7_retention_bounds_monotone c7WMs [30, 60] c7Row hrow
  have hmem30 : ((30 : Nat),
      CohortRetentionAnalysis.retentionAt (CohortRetentionAnalysis.groupOf c7WMs c7Key) 30)
        ∈ c7Row.retention :=
    List.mem_cons_self _ _
  have hmem60 : ((60 : Nat),
      CohortRetentionAnalysis.retentionAt (CohortRetentionAnalysis.groupOf c7WMs c7Key) 60)
        ∈ c7Row.retention :=
    List.mem_cons_of_mem _ (List.mem_cons_self _ _)
  exact ⟨hb _ hmem30, hm _ hmem30 _ hmem60 (by decide)⟩
